import Mathlib

/-!
Verification of the n-gram sliding-window iterator (`ngram_iter`).

The embedding follows the two source files:
* `src/state.rs`   — the `State` enum holding a `ConstGenericRingBuffer<T, N>`;
* `src/iter/mod.rs` — the `Iterator::next` implementation and the `From` impl.

The upstream source (a Rust `Iterator<Item = T>`) is modelled as a `List T`
pulled from the front; this models a fused iterator, which is how the crate's
tests and doc-examples drive it.  The bumper value `T::bumper_item()` is an
explicit `bumper : T` parameter.  The `MaybeUninit` output array is modelled
as a total function `Nat → T` initialised with the bumper value; every code
path that emits a window writes all `N` slots before the final
`transmute_copy`, so the initial values are never observable.  A Rust panic
(`panic!`, or `Option::unwrap` on `None`) is modelled as `Except.error`.
-/

namespace NgramIter

/-- Model of `ringbuffer::ConstGenericRingBuffer<T, CAP>`: a fixed-capacity
FIFO queue.  `data` lists the elements oldest first; `cap` is the const
generic capacity.  `push` appends at the back, overwriting the oldest
element when the buffer is full (the crate's documented behaviour);
`dequeue` removes the oldest element. -/
structure RingBuf (T : Type) where
  cap : Nat
  data : List T
  deriving DecidableEq

def RingBuf.push {T : Type} (rb : RingBuf T) (x : T) : RingBuf T :=
  if rb.data.length = rb.cap then ⟨rb.cap, rb.data.tail ++ [x]⟩
  else ⟨rb.cap, rb.data ++ [x]⟩

def RingBuf.dequeue {T : Type} : RingBuf T → Option (T × RingBuf T)
  | ⟨_, []⟩ => none
  | ⟨cap, x :: xs⟩ => some (x, ⟨cap, xs⟩)

/-- State from `src/state.rs`: the three-phase lifecycle.  In the source the `Middle`
payload is a `ConstGenericRingBuffer<T, N>` where `N` is the window width;
its capacity is recorded here in the `cap` field of `RingBuf`. -/
inductive State (T : Type) where
  | Start : State T
  | Middle : RingBuf T → State T
  | End : State T
  deriving DecidableEq

/-- The iterator of `src/iter/mod.rs`, owning the upstream source (`it`) and
the window state. -/
structure Iter (T : Type) (N : Nat) where
  it : List T
  state : State T
  deriving DecidableEq

/-- Write `v` at index `i` of the output array (`out[i] = v`). -/
def update {T : Type} (out : Nat → T) (i : Nat) (v : T) : Nat → T :=
  fun k => if k = i then v else out k

/-- Model of the bumper-filling loops of `next` (the Rust loops over the
index range from `i` to `N`, writing the bumper value at each slot), with
`c` the number of remaining indices. -/
def fillLoop {T : Type} (bumper : T) : Nat → Nat → (Nat → T) → Nat → T
  | 0, _, out => out
  | c + 1, i, out => fillLoop bumper c (i + 1) (update out i bumper)

/-- Model of the buffer-copying loop of the `Middle` branch: each buffered
item is written to consecutive output slots starting at `i`. -/
def copyLoop {T : Type} : List T → Nat → (Nat → T) → Nat → T
  | [], _, out => out
  | c :: cs, i, out => copyLoop cs (i + 1) (update out i c)

/-- The `for i in 2..N` loop of the `Start` branch.  Each iteration calls
`self.it.next()` once (counted in `pulls`); on `Some(item)` the item is
pushed into the ring buffer and written at `out[i]`; on `None` the slots
`i..N` are filled with the bumper value — the loop does NOT break and
continues with `i+1`.  `k` is the number of remaining iterations
(`k = N - i`). -/
def startLoop {T : Type} (bumper : T) (N : Nat) :
    Nat → Nat → List T → RingBuf T → (Nat → T) → Nat →
    (Nat → T) × RingBuf T × List T × Nat
  | 0, _, src, rb, out, pulls => (out, rb, src, pulls)
  | k + 1, i, item :: rest, rb, out, pulls =>
      startLoop bumper N k (i + 1) rest (rb.push item) (update out i item) (pulls + 1)
  | k + 1, i, [], rb, out, pulls =>
      startLoop bumper N k (i + 1) [] rb (fillLoop bumper (N - i) i out) (pulls + 1)

/-- The result of one call to `next`: the returned `Option<[T; N]>` window,
the iterator afterwards, and the number of calls made to the upstream
source's `next` during this call. -/
structure NextRes (T : Type) (N : Nat) where
  window : Option (List T)
  iter : Iter T N
  pulls : Nat
  deriving DecidableEq

/-- Decidable equality for `Except` results, so that concrete pulls can be
checked by evaluation. -/
instance exceptDecEq {ε α : Type} [DecidableEq ε] [DecidableEq α] :
    DecidableEq (Except ε α) := fun a b =>
  match a, b with
  | Except.error e, Except.error e2 =>
      if h : e = e2 then isTrue (by rw [h])
      else isFalse (fun hh => h (Except.error.inj hh))
  | Except.ok x, Except.ok y =>
      if h : x = y then isTrue (by rw [h])
      else isFalse (fun hh => h (Except.ok.inj hh))
  | Except.error _, Except.ok _ => isFalse (fun hh => Except.noConfusion hh)
  | Except.ok _, Except.error _ => isFalse (fun hh => Except.noConfusion hh)

/-- The final `transmute_copy`: read the `N` slots of the output array. -/
def window {T : Type} (N : Nat) (out : Nat → T) : List T :=
  (List.range N).map out

/-- Model of `Iterator::next` from `src/iter/mod.rs` lines 51–111.  Panics are
modelled as `Except.error`: the `N < 2` check at the top, and the
`rb.dequeue().unwrap()` in the `Middle` branch. -/
def Iter.next {T : Type} {N : Nat} (bumper : T) (m : Iter T N) :
    Except String (NextRes T N) :=
  if N < 2 then Except.error "ngram must have N of 2 or more"
  else
    match m.state with
    | State.Start =>
        match m.it with
        | [] => Except.ok ⟨none, ⟨[], State.End⟩, 1⟩
        | item :: rest =>
            let rb : RingBuf T := (RingBuf.mk N []).push item
            let out : Nat → T := fun _ => bumper
            let out := update out 0 bumper
            let out := update out 1 item
            let res := startLoop bumper N (N - 2) 2 rest rb out 1
            Except.ok ⟨some (window N res.1), ⟨res.2.2.1, State.Middle res.2.1⟩,
              res.2.2.2⟩
    | State.Middle rb =>
        match rb.dequeue with
        | none => Except.error "called Option::unwrap on a None value"
        | some (x, rb) =>
            let out : Nat → T := fun _ => bumper
            let out := update out 0 x
            let out := copyLoop rb.data 1 out
            let i := 1 + rb.data.length
            match m.it with
            | item :: rest =>
                let rb2 := rb.push item
                let out := update out i item
                let out := fillLoop bumper (N - (i + 1)) (i + 1) out
                let st := if rb2.data.isEmpty then State.End else State.Middle rb2
                Except.ok ⟨some (window N out), ⟨rest, st⟩, 1⟩
            | [] =>
                let out := fillLoop bumper (N - i) i out
                let st := if rb.data.isEmpty then State.End else State.Middle rb
                Except.ok ⟨some (window N out), ⟨[], st⟩, 1⟩
    | State.End => Except.ok ⟨none, m, 0⟩

/-- The `From<I>` impl (`src/iter/mod.rs` lines 114–125): builds the
iterator in `Start` state.  The source performs no check on `N` and has no
panicking path; this is recorded by the `Except` result always being
`Except.ok`. -/
def fromIter {T : Type} (N : Nat) (it : List T) : Except String (Iter T N) :=
  Except.ok ⟨it, State.Start⟩

/-- Drive the iterator: collect the emitted windows, in order, until the
iterator signals exhaustion (or would panic).  `fuel` bounds the number of
pulls; with `fuel` at least the total number of windows plus one the result
is the complete output sequence. -/
def run {T : Type} {N : Nat} (bumper : T) : Nat → Iter T N → List (List T)
  | 0, _ => []
  | fuel + 1, m =>
      match m.next bumper with
      | Except.ok r =>
          match r.window with
          | some w => w :: run bumper fuel r.iter
          | none => []
      | Except.error _ => []

/-- One pull, keeping only the successor iterator (identity on a panic). -/
def stepIter {T : Type} {N : Nat} (bumper : T) (m : Iter T N) : Iter T N :=
  match m.next bumper with
  | Except.ok r => r.iter
  | Except.error _ => m

/-- The reachable-state invariant maintained by the engine: in `Middle`
the ring buffer has the window width `N` as capacity, is non-empty, and
holds at most `N - 1` items. -/
def Inv {T : Type} (N : Nat) : Iter T N → Prop
  | ⟨_, State.Start⟩ => True
  | ⟨_, State.Middle rb⟩ => rb.cap = N ∧ rb.data ≠ [] ∧ rb.data.length ≤ N - 1
  | ⟨_, State.End⟩ => True

/-- Lifecycle rank used to state monotonicity of the state machine. -/
def State.rank {T : Type} : State T → Nat
  | State.Start => 0
  | State.Middle _ => 1
  | State.End => 2

/-! ### Pointwise characterisation of the output-array loops -/

theorem update_eval {T : Type} (out : Nat → T) (i : Nat) (v : T) (k : Nat) :
    update out i v k = if k = i then v else out k := rfl

theorem fillLoop_eval {T : Type} (bumper : T) :
    ∀ (c i : Nat) (out : Nat → T) (k : Nat),
      fillLoop bumper c i out k = if i ≤ k ∧ k < i + c then bumper else out k := by
  intro c
  induction c with
  | zero =>
      intro i out k
      simp only [fillLoop]
      rw [if_neg (by omega)]
  | succ c ih =>
      intro i out k
      simp only [fillLoop]
      rw [ih]
      by_cases h : i ≤ k ∧ k < i + (c + 1)
      · rw [if_pos h]
        by_cases h2 : i + 1 ≤ k ∧ k < i + 1 + c
        · rw [if_pos h2]
        · rw [if_neg h2, update_eval, if_pos (by omega)]
      · rw [if_neg h, if_neg (by omega), update_eval, if_neg (by omega)]

theorem copyLoop_keep {T : Type} :
    ∀ (cs : List T) (i : Nat) (out : Nat → T) (k : Nat), k < i →
      copyLoop cs i out k = out k := by
  intro cs
  induction cs with
  | nil => intro i out k _; rfl
  | cons c cs ih =>
      intro i out k hk
      simp only [copyLoop]
      rw [ih (i + 1) _ k (by omega), update_eval, if_neg (by omega)]

theorem copyLoop_map {T : Type} :
    ∀ (cs : List T) (i : Nat) (out : Nat → T),
      (List.range' i cs.length).map (copyLoop cs i out) = cs := by
  intro cs
  induction cs with
  | nil => intro i out; rfl
  | cons c cs ih =>
      intro i out
      simp only [List.length_cons, List.range'_succ, List.map_cons, copyLoop]
      rw [copyLoop_keep cs (i + 1) _ i (by omega), update_eval, if_pos rfl,
        ih (i + 1) (update out i c)]

/-! ### Characterisation of the first-pull fill loop (`for i in 2..N`) -/

theorem startLoop_pulls {T : Type} (bumper : T) (N : Nat) :
    ∀ (k i : Nat) (src : List T) (rb : RingBuf T) (out : Nat → T) (pulls : Nat),
      (startLoop bumper N k i src rb out pulls).2.2.2 = pulls + k := by
  intro k
  induction k with
  | zero => intro i src rb out pulls; rfl
  | succ k ih =>
      intro i src rb out pulls
      cases src with
      | nil => simp only [startLoop]; rw [ih]; omega
      | cons item rest => simp only [startLoop]; rw [ih]; omega

theorem startLoop_src {T : Type} (bumper : T) (N : Nat) :
    ∀ (k i : Nat) (src : List T) (rb : RingBuf T) (out : Nat → T) (pulls : Nat),
      (startLoop bumper N k i src rb out pulls).2.2.1 = src.drop k := by
  intro k
  induction k with
  | zero => intro i src rb out pulls; rfl
  | succ k ih =>
      intro i src rb out pulls
      cases src with
      | nil => simp only [startLoop]; rw [ih]; simp
      | cons item rest => simp only [startLoop]; rw [ih]; rfl

theorem startLoop_rb {T : Type} (bumper : T) (N : Nat) :
    ∀ (k i : Nat) (src : List T) (rb : RingBuf T) (out : Nat → T) (pulls : Nat),
      rb.data.length + k ≤ rb.cap →
      (startLoop bumper N k i src rb out pulls).2.1 = ⟨rb.cap, rb.data ++ src.take k⟩ := by
  intro k
  induction k with
  | zero =>
      intro i src rb out pulls _
      cases rb; simp [startLoop]
  | succ k ih =>
      intro i src rb out pulls hcap
      cases src with
      | nil =>
          simp only [startLoop]
          rw [ih (i + 1) [] rb _ (pulls + 1) (by omega)]
          simp
      | cons item rest =>
          simp only [startLoop]
          have hne : rb.data.length ≠ rb.cap := by omega
          have hpush : rb.push item = ⟨rb.cap, rb.data ++ [item]⟩ := by
            simp only [RingBuf.push]
            rw [if_neg hne]
          rw [hpush] at *
          rw [ih (i + 1) rest ⟨rb.cap, rb.data ++ [item]⟩ _ (pulls + 1) (by simp; omega)]
          simp

theorem startLoop_keep {T : Type} (bumper : T) (N : Nat) :
    ∀ (k i : Nat) (src : List T) (rb : RingBuf T) (out : Nat → T) (pulls : Nat) (j : Nat),
      j < i → (startLoop bumper N k i src rb out pulls).1 j = out j := by
  intro k
  induction k with
  | zero => intro i src rb out pulls j _; rfl
  | succ k ih =>
      intro i src rb out pulls j hj
      cases src with
      | nil =>
          simp only [startLoop]
          rw [ih (i + 1) [] rb _ (pulls + 1) j (by omega)]
          rw [fillLoop_eval, if_neg (by omega)]
      | cons item rest =>
          simp only [startLoop]
          rw [ih (i + 1) rest _ _ (pulls + 1) j (by omega)]
          rw [update_eval, if_neg (by omega)]

theorem startLoop_map {T : Type} (bumper : T) (N : Nat) :
    ∀ (k i : Nat) (src : List T) (rb : RingBuf T) (out : Nat → T) (pulls : Nat),
      i + k = N →
      (List.range' i k).map (startLoop bumper N k i src rb out pulls).1
        = src.take k ++ List.replicate (k - src.length) bumper := by
  intro k
  induction k with
  | zero => intro i src rb out pulls _; simp
  | succ k ih =>
      intro i src rb out pulls hN
      rw [List.range'_succ, List.map_cons]
      cases src with
      | nil =>
          simp only [startLoop]
          rw [startLoop_keep bumper N k (i + 1) [] rb _ (pulls + 1) i (by omega)]
          rw [fillLoop_eval, if_pos (by omega)]
          rw [ih (i + 1) [] rb _ (pulls + 1) (by omega)]
          simp [List.replicate_succ]
      | cons item rest =>
          simp only [startLoop]
          rw [startLoop_keep bumper N k (i + 1) rest _ _ (pulls + 1) i (by omega)]
          rw [update_eval, if_pos rfl]
          rw [ih (i + 1) rest _ _ (pulls + 1) (by omega)]
          simp only [List.take_succ_cons, List.length_cons, List.cons_append,
            Nat.succ_sub_succ]

/-- A segment of the output array on which a predicate forces the bumper
value reads back as a replicated list. -/
theorem map_eq_replicate {T : Type} (c : T) :
    ∀ (n s : Nat) (f : Nat → T), (∀ j, s ≤ j → j < s + n → f j = c) →
      (List.range' s n).map f = List.replicate n c := by
  intro n
  induction n with
  | zero => intro s f _; rfl
  | succ n ih =>
      intro s f h
      rw [List.range'_succ, List.map_cons, h s le_rfl (by omega), List.replicate_succ]
      rw [ih (s + 1) f (fun j h1 h2 => h j (by omega) (by omega))]

/-- Splitting `List.range N` at position `a` (with `a ≤ N`). -/
theorem range_split {N a : Nat} (h : a ≤ N) :
    List.range N = List.range' 0 a ++ List.range' a (N - a) := by
  rw [List.range_eq_range']
  have hap := List.range'_append 0 a (N - a) 1
  simp only [Nat.one_mul, Nat.zero_add] at hap
  rw [hap]
  congr 1
  omega

/-! ### The four branches of `Iter.next` -/

theorem next_lt2 {T : Type} {N : Nat} (bumper : T) (hN : N < 2) (m : Iter T N) :
    Iter.next bumper m = Except.error "ngram must have N of 2 or more" := by
  simp only [Iter.next]
  rw [if_pos hN]

theorem next_end {T : Type} {N : Nat} (bumper : T) (hN : 2 ≤ N) (src : List T) :
    Iter.next bumper (⟨src, State.End⟩ : Iter T N) =
      Except.ok ⟨none, ⟨src, State.End⟩, 0⟩ := by
  simp only [Iter.next]
  rw [if_neg (by omega)]

theorem next_start_nil {T : Type} {N : Nat} (bumper : T) (hN : 2 ≤ N) :
    Iter.next bumper (⟨[], State.Start⟩ : Iter T N) =
      Except.ok ⟨none, ⟨[], State.End⟩, 1⟩ := by
  simp only [Iter.next]
  rw [if_neg (by omega)]

theorem next_start_cons {T : Type} {N : Nat} (bumper : T) (hN : 2 ≤ N)
    (x : T) (rest : List T) :
    Iter.next bumper (⟨x :: rest, State.Start⟩ : Iter T N) =
      Except.ok ⟨some (bumper :: x ::
          (rest.take (N - 2) ++ List.replicate ((N - 2) - rest.length) bumper)),
        ⟨rest.drop (N - 2), State.Middle ⟨N, x :: rest.take (N - 2)⟩⟩,
        N - 1⟩ := by
  have hrb0 : (RingBuf.mk N []).push x = ⟨N, [x]⟩ := by
    simp only [RingBuf.push]
    split <;> rfl
  simp only [Iter.next]
  rw [if_neg (by omega)]
  simp only [hrb0]
  rw [startLoop_pulls, startLoop_src,
    startLoop_rb bumper N (N - 2) 2 rest ⟨N, [x]⟩ _ 1 (by simp; omega)]
  have hw : window N
      (startLoop bumper N (N - 2) 2 rest ⟨N, [x]⟩
        (update (update (fun _ => bumper) 0 bumper) 1 x) 1).1 =
      bumper :: x ::
        (rest.take (N - 2) ++ List.replicate ((N - 2) - rest.length) bumper) := by
    rw [window, range_split (show 2 ≤ N by omega)]
    rw [List.map_append]
    rw [startLoop_map bumper N (N - 2) 2 rest _ _ 1 (by omega)]
    have h0 : (List.range' 0 2).map
        (startLoop bumper N (N - 2) 2 rest ⟨N, [x]⟩
          (update (update (fun _ => bumper) 0 bumper) 1 x) 1).1 = [bumper, x] := by
      show [_, _] = _
      rw [startLoop_keep bumper N (N - 2) 2 rest _ _ 1 0 (by omega),
        startLoop_keep bumper N (N - 2) 2 rest _ _ 1 1 (by omega)]
      rw [update_eval, if_neg (by omega), update_eval, if_pos rfl,
        update_eval, if_pos rfl]
    rw [h0]
    rfl
  rw [hw]
  have h1 : 1 + (N - 2) = N - 1 := by omega
  rw [h1]
  simp

/-- An (unreachable) `Middle` state with an empty buffer panics on
`rb.dequeue().unwrap()`. -/
theorem next_middle_emptybuf {T : Type} {N : Nat} (bumper : T) (hN : 2 ≤ N)
    (src : List T) (cap : Nat) :
    Iter.next bumper (⟨src, State.Middle ⟨cap, []⟩⟩ : Iter T N) =
      Except.error "called Option::unwrap on a None value" := by
  simp only [Iter.next, RingBuf.dequeue]
  rw [if_neg (by omega)]

theorem next_middle_cons {T : Type} {N : Nat} (bumper : T) (hN : 2 ≤ N)
    (cap : Nat) (y : T) (ys : List T) (z : T) (zs : List T)
    (hcap : ys.length < cap) (hlen : ys.length + 2 ≤ N) :
    Iter.next bumper (⟨z :: zs, State.Middle ⟨cap, y :: ys⟩⟩ : Iter T N) =
      Except.ok ⟨some (y :: ys ++ z :: List.replicate (N - (ys.length + 2)) bumper),
        ⟨zs, State.Middle ⟨cap, ys ++ [z]⟩⟩, 1⟩ := by
  have hpush : (⟨cap, ys⟩ : RingBuf T).push z = ⟨cap, ys ++ [z]⟩ := by
    simp only [RingBuf.push]
    rw [if_neg (by omega)]
  simp only [Iter.next, RingBuf.dequeue]
  rw [if_neg (by omega)]
  simp only [hpush]
  rw [if_neg (by simp)]
  have hw : window N
      (fillLoop bumper (N - (1 + ys.length + 1)) (1 + ys.length + 1)
        (update (copyLoop ys 1 (update (fun _ => bumper) 0 y)) (1 + ys.length) z)) =
      y :: ys ++ z :: List.replicate (N - (ys.length + 2)) bumper := by
    rw [window, range_split (show 2 + ys.length ≤ N by omega)]
    rw [List.map_append]
    have hsplit2 : List.range' 0 (2 + ys.length) =
        List.range' 0 1 ++ List.range' 1 (ys.length + 1) := by
      have hap := List.range'_append 0 1 (ys.length + 1) 1
      simp only [Nat.one_mul, Nat.zero_add] at hap
      rw [hap]
      congr 1
      omega
    have hsplit3 : List.range' 1 (ys.length + 1) =
        List.range' 1 ys.length ++ List.range' (1 + ys.length) 1 := by
      have hap := List.range'_append 1 ys.length 1 1
      simp only [Nat.one_mul] at hap
      rw [hap]
      congr 1
      omega
    rw [hsplit2, hsplit3, List.map_append, List.map_append]
    have e0 : (List.range' 0 1).map
        (fillLoop bumper (N - (1 + ys.length + 1)) (1 + ys.length + 1)
          (update (copyLoop ys 1 (update (fun _ => bumper) 0 y)) (1 + ys.length) z)) =
        [y] := by
      show [_] = _
      rw [fillLoop_eval, if_neg (by omega), update_eval, if_neg (by omega),
        copyLoop_keep ys 1 _ 0 (by omega), update_eval, if_pos rfl]
    have e1 : (List.range' 1 ys.length).map
        (fillLoop bumper (N - (1 + ys.length + 1)) (1 + ys.length + 1)
          (update (copyLoop ys 1 (update (fun _ => bumper) 0 y)) (1 + ys.length) z)) =
        ys := by
      rw [List.map_congr_left (g := copyLoop ys 1 (update (fun _ => bumper) 0 y)) ?_,
        copyLoop_map]
      intro j hj
      rw [List.mem_range'_1] at hj
      rw [fillLoop_eval, if_neg (by omega), update_eval, if_neg (by omega)]
    have e2 : (List.range' (1 + ys.length) 1).map
        (fillLoop bumper (N - (1 + ys.length + 1)) (1 + ys.length + 1)
          (update (copyLoop ys 1 (update (fun _ => bumper) 0 y)) (1 + ys.length) z)) =
        [z] := by
      show [_] = _
      rw [fillLoop_eval, if_neg (by omega), update_eval, if_pos rfl]
    have e3 : (List.range' (2 + ys.length) (N - (2 + ys.length))).map
        (fillLoop bumper (N - (1 + ys.length + 1)) (1 + ys.length + 1)
          (update (copyLoop ys 1 (update (fun _ => bumper) 0 y)) (1 + ys.length) z)) =
        List.replicate (N - (ys.length + 2)) bumper := by
      rw [map_eq_replicate bumper (N - (2 + ys.length)) (2 + ys.length) _ ?_]
      · congr 1
        omega
      · intro j h1 h2
        rw [fillLoop_eval, if_pos (by omega)]
    rw [e0, e1, e2, e3]
    simp
  rw [hw]

theorem next_middle_nil {T : Type} {N : Nat} (bumper : T) (hN : 2 ≤ N)
    (cap : Nat) (y : T) (ys : List T) (hlen : ys.length + 1 ≤ N) :
    Iter.next bumper (⟨[], State.Middle ⟨cap, y :: ys⟩⟩ : Iter T N) =
      Except.ok ⟨some (y :: ys ++ List.replicate (N - (ys.length + 1)) bumper),
        ⟨[], if ys.isEmpty then State.End else State.Middle ⟨cap, ys⟩⟩, 1⟩ := by
  simp only [Iter.next, RingBuf.dequeue]
  rw [if_neg (by omega)]
  have hw : window N
      (fillLoop bumper (N - (1 + ys.length)) (1 + ys.length)
        (copyLoop ys 1 (update (fun _ => bumper) 0 y))) =
      y :: ys ++ List.replicate (N - (ys.length + 1)) bumper := by
    rw [window, range_split (show 1 + ys.length ≤ N by omega)]
    rw [List.map_append]
    have hsplit2 : List.range' 0 (1 + ys.length) =
        List.range' 0 1 ++ List.range' 1 ys.length := by
      have hap := List.range'_append 0 1 ys.length 1
      simp only [Nat.one_mul, Nat.zero_add] at hap
      rw [hap]
      congr 1
      omega
    rw [hsplit2, List.map_append]
    have e0 : (List.range' 0 1).map
        (fillLoop bumper (N - (1 + ys.length)) (1 + ys.length)
          (copyLoop ys 1 (update (fun _ => bumper) 0 y))) = [y] := by
      show [_] = _
      rw [fillLoop_eval, if_neg (by omega), copyLoop_keep ys 1 _ 0 (by omega),
        update_eval, if_pos rfl]
    have e1 : (List.range' 1 ys.length).map
        (fillLoop bumper (N - (1 + ys.length)) (1 + ys.length)
          (copyLoop ys 1 (update (fun _ => bumper) 0 y))) = ys := by
      rw [List.map_congr_left (g := copyLoop ys 1 (update (fun _ => bumper) 0 y)) ?_,
        copyLoop_map]
      intro j hj
      rw [List.mem_range'_1] at hj
      rw [fillLoop_eval, if_neg (by omega)]
    have e3 : (List.range' (1 + ys.length) (N - (1 + ys.length))).map
        (fillLoop bumper (N - (1 + ys.length)) (1 + ys.length)
          (copyLoop ys 1 (update (fun _ => bumper) 0 y))) =
        List.replicate (N - (ys.length + 1)) bumper := by
      rw [map_eq_replicate bumper (N - (1 + ys.length)) (1 + ys.length) _ ?_]
      · congr 1
        omega
      · intro j h1 h2
        rw [fillLoop_eval, if_pos (by omega)]
    rw [e0, e1, e3]
    simp
  rw [hw]

/-! ### Driving the iterator to exhaustion -/

theorem run_end {T : Type} {N : Nat} (bumper : T) (fuel : Nat) (src : List T) :
    run bumper fuel (⟨src, State.End⟩ : Iter T N) = [] := by
  cases fuel with
  | zero => rfl
  | succ f =>
      by_cases hN : N < 2
      · simp only [run]
        rw [next_lt2 bumper hN]
      · simp only [run]
        rw [next_end bumper (by omega) src]

theorem run_start_nil {T : Type} {N : Nat} (bumper : T) (hN : 2 ≤ N) (fuel : Nat) :
    run bumper fuel (⟨[], State.Start⟩ : Iter T N) = [] := by
  cases fuel with
  | zero => rfl
  | succ f =>
      simp only [run]
      rw [next_start_nil bumper hN]

theorem run_start_cons {T : Type} {N : Nat} (bumper : T) (hN : 2 ≤ N)
    (x : T) (rest : List T) (fuel : Nat) :
    run bumper (fuel + 1) (⟨x :: rest, State.Start⟩ : Iter T N) =
      (bumper :: x ::
        (rest.take (N - 2) ++ List.replicate ((N - 2) - rest.length) bumper)) ::
      run bumper fuel
        (⟨rest.drop (N - 2), State.Middle ⟨N, x :: rest.take (N - 2)⟩⟩ : Iter T N) := by
  simp only [run]
  rw [next_start_cons bumper hN x rest]

/-- The drain from a reachable `Middle` state: with enough fuel, the run
emits exactly `|buffer| + |source|` further windows, whose leading elements
are exactly the buffered items followed by the remaining source items in
order, and whose final window is the overall last item followed by `N - 1`
bumper values. -/
theorem run_middle_spec {T : Type} {N : Nat} (bumper : T) :
    ∀ (fuel : Nat) (src : List T) (y : T) (ys : List T),
      2 ≤ N → ys.length + 2 ≤ N →
      (y :: ys).length + src.length ≤ fuel →
      (run bumper fuel (⟨src, State.Middle ⟨N, y :: ys⟩⟩ : Iter T N)).length
          = (y :: ys).length + src.length ∧
      (run bumper fuel (⟨src, State.Middle ⟨N, y :: ys⟩⟩ : Iter T N)).map List.head?
          = ((y :: ys) ++ src).map some ∧
      (run bumper fuel (⟨src, State.Middle ⟨N, y :: ys⟩⟩ : Iter T N)).getLast?
          = (((y :: ys) ++ src).getLast?).map
              (fun l => l :: List.replicate (N - 1) bumper) := by
  intro fuel
  induction fuel with
  | zero =>
      intro src y ys _ _ hf
      simp at hf
  | succ f ih =>
      intro src y ys hN hlen hf
      cases src with
      | cons z zs =>
          have hstep : run bumper (f + 1)
              (⟨z :: zs, State.Middle ⟨N, y :: ys⟩⟩ : Iter T N) =
              (y :: ys ++ z :: List.replicate (N - (ys.length + 2)) bumper) ::
              run bumper f (⟨zs, State.Middle ⟨N, ys ++ [z]⟩⟩ : Iter T N) := by
            simp only [run]
            rw [next_middle_cons bumper hN N y ys z zs (by omega) hlen]
          obtain ⟨y2, ys2, hdata⟩ : ∃ y2 ys2, ys ++ [z] = y2 :: ys2 := by
            cases ys with
            | nil => exact ⟨z, [], rfl⟩
            | cons a as => exact ⟨a, as ++ [z], rfl⟩
          have hlen2 : ys2.length + 1 = ys.length + 1 := by
            have := congrArg List.length hdata
            simp at this
            omega
          have hih := ih zs y2 ys2 hN (by omega)
            (by simp only [List.length_cons] at hf ⊢; omega)
          rw [hdata] at hstep
          obtain ⟨ihlen, ihheads, ihlast⟩ := hih
          have hconcat : (y :: ys) ++ (z :: zs) = y :: ((y2 :: ys2) ++ zs) := by
            rw [← hdata]
            simp
          refine ⟨?_, ?_, ?_⟩
          · rw [hstep]
            simp only [List.length_cons, ihlen]
            omega
          · rw [hstep, hconcat]
            simp only [List.map_cons, ihheads]
            rfl
          · rw [hstep, hconcat]
            obtain ⟨r0, rs, hr⟩ : ∃ r0 rs,
                run bumper f (⟨zs, State.Middle ⟨N, y2 :: ys2⟩⟩ : Iter T N)
                  = r0 :: rs := by
              have hpos : 0 < (run bumper f
                  (⟨zs, State.Middle ⟨N, y2 :: ys2⟩⟩ : Iter T N)).length := by
                rw [ihlen]
                simp
              cases hrun : run bumper f (⟨zs, State.Middle ⟨N, y2 :: ys2⟩⟩ : Iter T N) with
              | nil => rw [hrun] at hpos; simp at hpos
              | cons r0 rs => exact ⟨r0, rs, rfl⟩
            rw [hr, List.getLast?_cons_cons, ← hr, ihlast]
            simp only [List.cons_append, List.getLast?_cons_cons]
      | nil =>
          cases ys with
          | nil =>
              have hstep : run bumper (f + 1)
                  (⟨[], State.Middle ⟨N, [y]⟩⟩ : Iter T N) =
                  (y :: List.replicate (N - 1) bumper) ::
                  run bumper f (⟨[], State.End⟩ : Iter T N) := by
                simp only [run]
                rw [next_middle_nil bumper hN N y [] (by omega)]
                simp
              rw [hstep, run_end]
              refine ⟨by simp, by simp, by simp⟩
          | cons a as =>
              have hstep : run bumper (f + 1)
                  (⟨[], State.Middle ⟨N, y :: a :: as⟩⟩ : Iter T N) =
                  (y :: (a :: as) ++
                    List.replicate (N - (as.length + 2)) bumper) ::
                  run bumper f (⟨[], State.Middle ⟨N, a :: as⟩⟩ : Iter T N) := by
                simp only [run]
                rw [next_middle_nil bumper hN N y (a :: as) (by simp at hlen ⊢; omega)]
                simp
              have hih := ih [] a as hN (by simp at hlen ⊢; omega)
                (by simp at hf ⊢; omega)
              obtain ⟨ihlen, ihheads, ihlast⟩ := hih
              refine ⟨?_, ?_, ?_⟩
              · rw [hstep]
                simp only [List.length_cons, ihlen]
                simp
              · rw [hstep]
                simp only [List.map_cons, ihheads]
                simp
              · rw [hstep]
                obtain ⟨r0, rs, hr⟩ : ∃ r0 rs,
                    run bumper f (⟨[], State.Middle ⟨N, a :: as⟩⟩ : Iter T N)
                      = r0 :: rs := by
                  have hpos : 0 < (run bumper f
                      (⟨[], State.Middle ⟨N, a :: as⟩⟩ : Iter T N)).length := by
                    rw [ihlen]
                    simp
                  cases hrun : run bumper f (⟨[], State.Middle ⟨N, a :: as⟩⟩ : Iter T N) with
                  | nil => rw [hrun] at hpos; simp at hpos
                  | cons r0 rs => exact ⟨r0, rs, rfl⟩
                rw [hr, List.getLast?_cons_cons, ← hr, ihlast]
                simp

/-- Full behaviour on a non-empty source `x :: rest`: `|S| + 1` windows,
whose leading elements are the bumper followed by every source item in
order, the last window being the last source item followed by `N - 1`
bumper values. -/
theorem run_spec {T : Type} {N : Nat} (bumper : T) (x : T) (rest : List T)
    (fuel : Nat) (hN : 2 ≤ N) (hf : (x :: rest).length + 1 ≤ fuel) :
    (run bumper fuel (⟨x :: rest, State.Start⟩ : Iter T N)).length
        = (x :: rest).length + 1 ∧
    (run bumper fuel (⟨x :: rest, State.Start⟩ : Iter T N)).map List.head?
        = some bumper :: (x :: rest).map some ∧
    (run bumper fuel (⟨x :: rest, State.Start⟩ : Iter T N)).getLast?
        = ((x :: rest).getLast?).map (fun l => l :: List.replicate (N - 1) bumper) := by
  cases fuel with
  | zero => simp at hf
  | succ f =>
      rw [run_start_cons bumper hN x rest f]
      have htd : (rest.take (N - 2)).length + (rest.drop (N - 2)).length
          = rest.length := by
        rw [List.length_take, List.length_drop]
        omega
      have hmid := run_middle_spec bumper f (rest.drop (N - 2)) x (rest.take (N - 2))
        hN (by rw [List.length_take]; omega)
        (by simp only [List.length_cons] at hf ⊢; omega)
      obtain ⟨mlen, mheads, mlast⟩ := hmid
      have hglue : (x :: rest.take (N - 2)) ++ rest.drop (N - 2) = x :: rest := by
        rw [List.cons_append, List.take_append_drop]
      refine ⟨?_, ?_, ?_⟩
      · simp only [List.length_cons, mlen]
        omega
      · simp only [List.map_cons, mheads, hglue]
        rfl
      · obtain ⟨r0, rs, hr⟩ : ∃ r0 rs,
            run bumper f (⟨rest.drop (N - 2),
              State.Middle ⟨N, x :: rest.take (N - 2)⟩⟩ : Iter T N) = r0 :: rs := by
          have hpos : 0 < (run bumper f (⟨rest.drop (N - 2),
              State.Middle ⟨N, x :: rest.take (N - 2)⟩⟩ : Iter T N)).length := by
            rw [mlen]
            simp
          cases hrun : run bumper f (⟨rest.drop (N - 2),
              State.Middle ⟨N, x :: rest.take (N - 2)⟩⟩ : Iter T N) with
          | nil => rw [hrun] at hpos; simp at hpos
          | cons r0 rs => exact ⟨r0, rs, rfl⟩
        rw [hr, List.getLast?_cons_cons, ← hr, mlast, hglue]

/-! ### The reachable-state invariant is preserved by every pull -/

theorem inv_next {T : Type} {N : Nat} (bumper : T) (m : Iter T N) (r : NextRes T N)
    (hInv : Inv N m) (h : Iter.next bumper m = Except.ok r) : Inv N r.iter := by
  by_cases hN : N < 2
  · rw [next_lt2 bumper hN] at h
    exact absurd h (by simp)
  · have hN2 : 2 ≤ N := by omega
    obtain ⟨src, st⟩ := m
    cases st with
    | Start =>
        cases src with
        | nil =>
            rw [next_start_nil bumper hN2] at h
            cases h
            exact trivial
        | cons x rest =>
            rw [next_start_cons bumper hN2 x rest] at h
            cases h
            exact ⟨rfl, by simp, by simp [List.length_take]; omega⟩
    | Middle rb =>
        obtain ⟨cap, data⟩ := rb
        obtain ⟨hcap, hne, hlen⟩ := hInv
        simp only at hcap hne hlen
        cases data with
        | nil => exact absurd rfl hne
        | cons y ys =>
            simp only [List.length_cons] at hlen
            cases src with
            | cons z zs =>
                rw [next_middle_cons bumper hN2 cap y ys z zs (by omega) (by omega)] at h
                cases h
                exact ⟨hcap, by simp, by simp; omega⟩
            | nil =>
                rw [next_middle_nil bumper hN2 cap y ys (by omega)] at h
                cases h
                cases ys with
                | nil => exact trivial
                | cons a as =>
                    simp only [List.isEmpty_cons, Bool.false_eq_true, if_false]
                    exact ⟨hcap, by simp, by simp at hlen ⊢; omega⟩
    | End =>
        rw [next_end bumper hN2 src] at h
        cases h
        exact trivial

/-- For `N ≥ 2`, a pull on any engine satisfying the reachable-state
invariant never panics. -/
theorem next_ok {T : Type} {N : Nat} (bumper : T) (m : Iter T N)
    (hN : 2 ≤ N) (hInv : Inv N m) :
    ∃ r, Iter.next bumper m = Except.ok r := by
  obtain ⟨src, st⟩ := m
  cases st with
  | Start =>
      cases src with
      | nil => exact ⟨_, next_start_nil bumper hN⟩
      | cons x rest => exact ⟨_, next_start_cons bumper hN x rest⟩
  | Middle rb =>
      obtain ⟨cap, data⟩ := rb
      obtain ⟨hcap, hne, hlen⟩ := hInv
      simp only at hcap hne hlen
      cases data with
      | nil => exact absurd rfl hne
      | cons y ys =>
          simp only [List.length_cons] at hlen
          cases src with
          | cons z zs =>
              exact ⟨_, next_middle_cons bumper hN cap y ys z zs (by omega) (by omega)⟩
          | nil => exact ⟨_, next_middle_nil bumper hN cap y ys (by omega)⟩
  | End => exact ⟨_, next_end bumper hN src⟩

/-! ### Claims -/

/-- C1 counterexample: with `N = 2` and the one-element source `[1]` the
iterator emits 2 windows (`[0,1]` and `[1,0]`), not `|S| = 1` as the claim
states. -/
theorem c1_counterexample :
    (run (0 : Nat) 5 (⟨[1], State.Start⟩ : Iter Nat 2)).length = 2 ∧
    (run (0 : Nat) 5 (⟨[1], State.Start⟩ : Iter Nat 2)).length ≠ [1].length := by
  decide

/-- C1 (amended): for every `N ≥ 2`, a non-empty source of length `L`
yields exactly `L + 1` windows, an empty source yields zero windows, and an
empty source is the only way to get zero windows. -/
theorem c1_amended_window_count {T : Type} {N : Nat} (bumper : T) (S : List T)
    (fuel : Nat) (hN : 2 ≤ N) (hf : S.length + 1 ≤ fuel) :
    (S = [] → run bumper fuel (⟨S, State.Start⟩ : Iter T N) = []) ∧
    (S ≠ [] → (run bumper fuel (⟨S, State.Start⟩ : Iter T N)).length
        = S.length + 1) ∧
    ((run bumper fuel (⟨S, State.Start⟩ : Iter T N)).length = 0 ↔ S = []) := by
  cases S with
  | nil =>
      refine ⟨fun _ => run_start_nil bumper hN fuel, ?_, ?_⟩
      · intro hne
        exact absurd rfl hne
      · rw [run_start_nil bumper hN fuel]
        simp
  | cons x rest =>
      have hcount := (run_spec bumper x rest fuel hN hf).1
      refine ⟨?_, fun _ => hcount, ?_⟩
      · intro hh
        cases hh
      · rw [hcount]
        simp

/-- C1 amended, instantiated at `N = 2`, source `[1]`, fuel 3. -/
theorem c1_amended_window_count_witness :
    (([1] : List Nat) = [] → run (0 : Nat) 3 (⟨[1], State.Start⟩ : Iter Nat 2) = []) ∧
    (([1] : List Nat) ≠ [] →
      (run (0 : Nat) 3 (⟨[1], State.Start⟩ : Iter Nat 2)).length = [1].length + 1) ∧
    ((run (0 : Nat) 3 (⟨[1], State.Start⟩ : Iter Nat 2)).length = 0 ↔
      ([1] : List Nat) = []) :=
  c1_amended_window_count (0 : Nat) [1] 3 (by decide) (by decide)

/-- C2 counterexample: with `N = 3`, bumper `'_'` and source `"ab"`, the
trailing (position 2) elements of the emitted windows are `b`, `_`, `_`;
the original item `a` never appears in trailing position. -/
theorem c2_counterexample :
    (run '_' 4 (⟨['a', 'b'], State.Start⟩ : Iter Char 3)).map
        (fun w => w.getD 2 '_') = ['b', '_', '_'] ∧
    'a' ∉ (run '_' 4 (⟨['a', 'b'], State.Start⟩ : Iter Char 3)).map
        (fun w => w.getD 2 '_') := by
  decide

/-- C2 (amended): every original item of the source appears as the LEADING
element (position 0) of at least one emitted window (the code pads one
bumper at the start and drains the buffer through position 0, rather than
padding `N - 1` bumpers and pushing items through the trailing position). -/
theorem c2_amended_leading {T : Type} {N : Nat} (bumper : T) (S : List T)
    (fuel : Nat) (hN : 2 ≤ N) (hf : S.length + 1 ≤ fuel) (a : T) (ha : a ∈ S) :
    some a ∈ (run bumper fuel (⟨S, State.Start⟩ : Iter T N)).map List.head? := by
  cases S with
  | nil => cases ha
  | cons x rest =>
      rw [(run_spec bumper x rest fuel hN hf).2.1]
      right
      exact List.mem_map_of_mem some ha

/-- C2 amended, instantiated: item 7 of source `[5, 7]` leads a window. -/
theorem c2_amended_leading_witness :
    some 7 ∈ (run (0 : Nat) 3 (⟨[5, 7], State.Start⟩ : Iter Nat 2)).map List.head? :=
  c2_amended_leading (0 : Nat) [5, 7] 3 (by decide) (by decide) 7 (by decide)

/-- C3 counterexample: with `N = 3`, bumper `'_'`, input `"ab"`, the code
emits `[_,a,b], [a,b,_], [b,_,_]` — not `[_,_,a], [_,a,b], [a,b,_]` as the
claim states (the code's own doc-test asserts the first trigram is
`[bumper, 'a', 'b']`). -/
theorem c3_counterexample :
    run '_' 4 (⟨['a', 'b'], State.Start⟩ : Iter Char 3)
        = [['_', 'a', 'b'], ['a', 'b', '_'], ['b', '_', '_']] ∧
    run '_' 4 (⟨['a', 'b'], State.Start⟩ : Iter Char 3)
        ≠ [['_', '_', 'a'], ['_', 'a', 'b'], ['a', 'b', '_']] := by
  decide

/-- C3 (amended): with `N = 3`, bumper `'_'` and input `"ab"`, the iterator
emits exactly `[_,a,b], [a,b,_], [b,_,_]`, in that order, and the fourth
pull signals exhaustion (no window) leaving the state `End`. -/
theorem c3_amended_trigram :
    run '_' 4 (⟨['a', 'b'], State.Start⟩ : Iter Char 3)
        = [['_', 'a', 'b'], ['a', 'b', '_'], ['b', '_', '_']] ∧
    Iter.next '_' (stepIter '_' (stepIter '_' (stepIter '_'
        (⟨['a', 'b'], State.Start⟩ : Iter Char 3))))
        = Except.ok ⟨none, ⟨[], State.End⟩, 0⟩ := by
  decide

/-- C4 counterexample: the buffer created on the first pull with `N = 3`
has capacity 3 (the `ConstGenericRingBuffer<T, N>` in `State<T, N>` is
instantiated at `N`), not `N - 1 = 2` as the claim states. -/
theorem c4_counterexample :
    stepIter '_' (⟨['a', 'b'], State.Start⟩ : Iter Char 3)
        = ⟨[], State.Middle ⟨3, ['a', 'b']⟩⟩ ∧ (3 : Nat) ≠ 3 - 1 := by
  decide

/-- C4 (amended): the buffer created on the first pull has fixed capacity
exactly `N` (not `N - 1`); its occupancy is nonetheless at most `N - 1`,
enforced by the engine's push/dequeue discipline (the `Inv` invariant is
preserved by every successful pull), not by construction. -/
theorem c4_amended_capacity {T : Type} {N : Nat} (bumper : T) (hN : 2 ≤ N)
    (x : T) (rest : List T) (r : NextRes T N)
    (h : Iter.next bumper (⟨x :: rest, State.Start⟩ : Iter T N) = Except.ok r) :
    r.iter.state = State.Middle ⟨N, x :: rest.take (N - 2)⟩ ∧
    (x :: rest.take (N - 2)).length ≤ N - 1 ∧
    (∀ (m : Iter T N) (r2 : NextRes T N), Inv N m →
        Iter.next bumper m = Except.ok r2 → Inv N r2.iter) := by
  rw [next_start_cons bumper hN x rest] at h
  cases h
  refine ⟨rfl, ?_, fun m r2 hInv h2 => inv_next bumper m r2 hInv h2⟩
  simp [List.length_take]
  omega

/-- C4 amended, instantiated at `N = 3`, source `[1, 2]`. -/
theorem c4_amended_capacity_witness :
    ((⟨some [0, 1, 2], ⟨[], State.Middle ⟨3, [1, 2]⟩⟩, 2⟩ : NextRes Nat 3)).iter.state
        = State.Middle ⟨3, 1 :: [2].take (3 - 2)⟩ ∧
    ((1 : Nat) :: [2].take (3 - 2)).length ≤ 3 - 1 :=
  ⟨(c4_amended_capacity (0 : Nat) (by decide) 1 [2]
      ⟨some [0, 1, 2], ⟨[], State.Middle ⟨3, [1, 2]⟩⟩, 2⟩ (by decide)).1,
   (c4_amended_capacity (0 : Nat) (by decide) 1 [2]
      ⟨some [0, 1, 2], ⟨[], State.Middle ⟨3, [1, 2]⟩⟩, 2⟩ (by decide)).2.1⟩

/-- C5 counterexample: with `N = 4` and source `[1]`, the first pull obtains
one item (source call 1) and first observes exhaustion on source call 2;
under the claim no further source call would follow, for a total of 2, but
the fill loop does not break and the pull makes 3 source calls. -/
theorem c5_counterexample :
    Iter.next (0 : Nat) (⟨[1], State.Start⟩ : Iter Nat 4)
        = Except.ok ⟨some [0, 1, 0, 0], ⟨[], State.Middle ⟨4, [1]⟩⟩, 3⟩ ∧
    (3 : Nat) ≠ 2 := by
  decide

/-- C5 (amended): during the first pull on a non-empty source, if the source
is exhausted mid-fill all remaining window positions are filled with the
bumper value, but the loop keeps calling the source's next-item operation
once per remaining position: the call always makes exactly `N - 1` source
pulls (the extra pulls on the fused source return nothing). -/
theorem c5_amended_pulls {T : Type} {N : Nat} (bumper : T) (x : T) (rest : List T)
    (hN : 2 ≤ N) (r : NextRes T N)
    (h : Iter.next bumper (⟨x :: rest, State.Start⟩ : Iter T N) = Except.ok r) :
    r.pulls = N - 1 ∧
    r.window = some (bumper :: x ::
      (rest.take (N - 2) ++ List.replicate ((N - 2) - rest.length) bumper)) := by
  rw [next_start_cons bumper hN x rest] at h
  cases h
  exact ⟨rfl, rfl⟩

/-- C5 amended, instantiated at `N = 4`, source `[1]`: 3 source pulls, the
positions after the exhaustion bumper-filled. -/
theorem c5_amended_pulls_witness :
    ((⟨some [0, 1, 0, 0], ⟨[], State.Middle ⟨4, [1]⟩⟩, 3⟩ : NextRes Nat 4)).pulls
        = 4 - 1 ∧
    ((⟨some [0, 1, 0, 0], ⟨[], State.Middle ⟨4, [1]⟩⟩, 3⟩ : NextRes Nat 4)).window
        = some ((0 : Nat) :: 1 ::
            (([] : List Nat).take (4 - 2) ++
              List.replicate ((4 - 2) - ([] : List Nat).length) 0)) :=
  c5_amended_pulls (0 : Nat) 1 [] (by decide)
    ⟨some [0, 1, 0, 0], ⟨[], State.Middle ⟨4, [1]⟩⟩, 3⟩ (by decide)

/-- C6 counterexample: constructing an engine with `N = 1 < 2` does NOT
abort — the `From` impl performs no check and returns the engine (the
crate's doc-test constructs a 1-gram iterator and only the subsequent
`next()` panics). -/
theorem c6_counterexample :
    fromIter 1 ([1] : List Nat) = Except.ok ⟨[1], State.Start⟩ := by
  decide

/-- C6 (amended): pulling with `N < 2` always panics, regardless of source
and state, and the violation is never surfaced as a recoverable value;
construction never panics for any `N`; and for `N ≥ 2` no pull on an engine
satisfying the reachable-state invariant ever panics. -/
theorem c6_amended_panic {T : Type} (bumper : T) :
    (∀ (N : Nat) (m : Iter T N), N < 2 →
        Iter.next bumper m = Except.error "ngram must have N of 2 or more") ∧
    (∀ (N : Nat) (it : List T), fromIter N it = Except.ok ⟨it, State.Start⟩) ∧
    (∀ (N : Nat) (m : Iter T N), 2 ≤ N → Inv N m →
        ∃ r, Iter.next bumper m = Except.ok r) :=
  ⟨fun _ m hN => next_lt2 bumper hN m, fun _ _ => rfl,
   fun _ m hN hInv => next_ok bumper m hN hInv⟩

/-- C6 amended, instantiated: pulling a 1-gram engine panics; constructing
a 2-gram engine succeeds. -/
theorem c6_amended_panic_witness :
    Iter.next (0 : Nat) (⟨[1], State.Start⟩ : Iter Nat 1)
        = Except.error "ngram must have N of 2 or more" ∧
    fromIter 2 ([1] : List Nat) = Except.ok ⟨[1], State.Start⟩ :=
  ⟨(c6_amended_panic (0 : Nat)).1 1 ⟨[1], State.Start⟩ (by decide),
   (c6_amended_panic (0 : Nat)).2.1 2 [1]⟩

/-- C7: once a pull signals exhaustion (returns no window) the state is
`End`, and every pull in `End` again signals exhaustion leaving the state
`End` — termination is idempotent. -/
theorem c7_idempotent_termination {T : Type} {N : Nat} (bumper : T) (hN : 2 ≤ N) :
    (∀ (m : Iter T N) (r : NextRes T N), Iter.next bumper m = Except.ok r →
        r.window = none → r.iter.state = State.End) ∧
    (∀ src : List T, Iter.next bumper (⟨src, State.End⟩ : Iter T N)
        = Except.ok ⟨none, ⟨src, State.End⟩, 0⟩) := by
  refine ⟨?_, fun src => next_end bumper hN src⟩
  intro m r h hw
  obtain ⟨src, st⟩ := m
  cases st with
  | Start =>
      cases src with
      | nil =>
          rw [next_start_nil bumper hN] at h
          cases h
          rfl
      | cons x rest =>
          rw [next_start_cons bumper hN x rest] at h
          cases h
          cases hw
  | Middle rb =>
      obtain ⟨cap, data⟩ := rb
      cases data with
      | nil =>
          rw [next_middle_emptybuf bumper hN src cap] at h
          cases h
      | cons y ys =>
          cases src with
          | cons z zs =>
              simp only [Iter.next, RingBuf.dequeue] at h
              rw [if_neg (by omega)] at h
              cases h
              cases hw
          | nil =>
              simp only [Iter.next, RingBuf.dequeue] at h
              rw [if_neg (by omega)] at h
              cases h
              cases hw
  | End =>
      rw [next_end bumper hN src] at h
      cases h
      rfl

/-- C7, instantiated at `N = 2`: the empty-source first pull signals
exhaustion and lands in `End`; pulling in `End` returns no window and stays
in `End`. -/
theorem c7_idempotent_termination_witness :
    ((⟨none, ⟨[], State.End⟩, 1⟩ : NextRes Nat 2).window = none →
      (⟨none, ⟨[], State.End⟩, 1⟩ : NextRes Nat 2).iter.state = State.End) ∧
    Iter.next (0 : Nat) (⟨[], State.End⟩ : Iter Nat 2)
        = Except.ok ⟨none, ⟨[], State.End⟩, 0⟩ :=
  ⟨(c7_idempotent_termination (0 : Nat) (by decide)).1 ⟨[], State.Start⟩
      ⟨none, ⟨[], State.End⟩, 1⟩ (by decide),
   (c7_idempotent_termination (0 : Nat) (by decide)).2 []⟩

/-- C8: across successful pulls the state only moves forward in the order
`Start → Middle → End`: a pull in `Start` yields `Middle` or `End`, a pull
in `Middle` yields `Middle` or `End`, a pull in `End` stays in `End`; the
lifecycle rank never decreases and `Start` is never re-entered. -/
theorem c8_monotonic {T : Type} {N : Nat} (bumper : T) (m : Iter T N)
    (r : NextRes T N) (h : Iter.next bumper m = Except.ok r) :
    (m.state = State.Start →
        (∃ rb, r.iter.state = State.Middle rb) ∨ r.iter.state = State.End) ∧
    (∀ rb, m.state = State.Middle rb →
        (∃ rb', r.iter.state = State.Middle rb') ∨ r.iter.state = State.End) ∧
    (m.state = State.End → r.iter.state = State.End) ∧
    State.rank m.state ≤ State.rank r.iter.state ∧
    (m.state = State.Start → r.iter.state ≠ State.Start) := by
  by_cases hN : N < 2
  · rw [next_lt2 bumper hN] at h
    cases h
  · have hN2 : 2 ≤ N := by omega
    obtain ⟨src, st⟩ := m
    cases st with
    | Start =>
        cases src with
        | nil =>
            rw [next_start_nil bumper hN2] at h
            cases h
            exact ⟨fun _ => Or.inr rfl, fun rb hrb => State.noConfusion hrb,
              fun hh => State.noConfusion hh, by simp [State.rank],
              fun _ hh => State.noConfusion hh⟩
        | cons x rest =>
            rw [next_start_cons bumper hN2 x rest] at h
            cases h
            exact ⟨fun _ => Or.inl ⟨_, rfl⟩, fun rb hrb => State.noConfusion hrb,
              fun hh => State.noConfusion hh, by simp [State.rank],
              fun _ hh => State.noConfusion hh⟩
    | Middle rb =>
        obtain ⟨cap, data⟩ := rb
        cases data with
        | nil =>
            rw [next_middle_emptybuf bumper hN2 src cap] at h
            cases h
        | cons y ys =>
            cases src with
            | cons z zs =>
                simp only [Iter.next, RingBuf.dequeue] at h
                rw [if_neg (by omega)] at h
                cases h
                refine ⟨fun hh => State.noConfusion hh, fun rb2 _ => ?_,
                  fun hh => State.noConfusion hh, ?_, fun hh => State.noConfusion hh⟩
                · by_cases hb : (((⟨cap, ys⟩ : RingBuf T).push z).data).isEmpty
                  · right
                    simp [hb]
                  · left
                    exact ⟨(⟨cap, ys⟩ : RingBuf T).push z, by simp [hb]⟩
                · by_cases hb : (((⟨cap, ys⟩ : RingBuf T).push z).data).isEmpty
                  · simp [hb, State.rank]
                  · simp [hb, State.rank]
            | nil =>
                simp only [Iter.next, RingBuf.dequeue] at h
                rw [if_neg (by omega)] at h
                cases h
                refine ⟨fun hh => State.noConfusion hh, fun rb2 _ => ?_,
                  fun hh => State.noConfusion hh, ?_, fun hh => State.noConfusion hh⟩
                · by_cases hb : (ys : List T).isEmpty
                  · right
                    simp [hb]
                  · left
                    exact ⟨⟨cap, ys⟩, by simp [hb]⟩
                · by_cases hb : (ys : List T).isEmpty
                  · simp [hb, State.rank]
                  · simp [hb, State.rank]
    | End =>
        rw [next_end bumper hN2 src] at h
        cases h
        exact ⟨fun hh => State.noConfusion hh, fun rb2 hrb => State.noConfusion hrb,
          fun _ => rfl, by simp [State.rank], fun hh => State.noConfusion hh⟩

/-- C8, instantiated at `N = 2`, source `[1]`: the first pull moves
`Start` to `Middle` — the rank increases and `Start` is not re-entered. -/
theorem c8_monotonic_witness :
    State.rank ((⟨[1], State.Start⟩ : Iter Nat 2)).state ≤
      State.rank ((⟨some [0, 1], ⟨[], State.Middle ⟨2, [1]⟩⟩, 1⟩ :
        NextRes Nat 2)).iter.state ∧
    ((⟨some [0, 1], ⟨[], State.Middle ⟨2, [1]⟩⟩, 1⟩ :
        NextRes Nat 2)).iter.state ≠ State.Start :=
  ⟨(c8_monotonic (0 : Nat) ⟨[1], State.Start⟩
      ⟨some [0, 1], ⟨[], State.Middle ⟨2, [1]⟩⟩, 1⟩ (by decide)).2.2.2.1,
   (c8_monotonic (0 : Nat) ⟨[1], State.Start⟩
      ⟨some [0, 1], ⟨[], State.Middle ⟨2, [1]⟩⟩, 1⟩ (by decide)).2.2.2.2 rfl⟩

/-- C9: a non-empty source of length `L` yields exactly `L + 1` windows
before exhaustion is first signaled (one startup window plus one window per
source item drained through position 0). -/
theorem c9_count {T : Type} {N : Nat} (bumper : T) (x : T) (rest : List T)
    (fuel : Nat) (hN : 2 ≤ N) (hf : (x :: rest).length + 1 ≤ fuel) :
    (run bumper fuel (⟨x :: rest, State.Start⟩ : Iter T N)).length
        = (x :: rest).length + 1 :=
  (run_spec bumper x rest fuel hN hf).1

/-- C9, instantiated at `N = 3`, source `[1, 2]`: 3 windows. -/
theorem c9_count_witness :
    (run (0 : Nat) 5 (⟨[1, 2], State.Start⟩ : Iter Nat 3)).length
        = ([1, 2] : List Nat).length + 1 :=
  c9_count (0 : Nat) 1 [2] 5 (by decide) (by decide)

/-- C10: on a non-empty source the last emitted window is the final source
item followed by `N - 1` bumper values, and the pull that moves a `Middle`
state to `End` happens only when the source is already empty — so that pull
never places a freshly pulled source item in its window. -/
theorem c10_last_window {T : Type} {N : Nat} (bumper : T) (x : T) (rest : List T)
    (fuel : Nat) (hN : 2 ≤ N) (hf : (x :: rest).length + 1 ≤ fuel) :
    (run bumper fuel (⟨x :: rest, State.Start⟩ : Iter T N)).getLast?
        = ((x :: rest).getLast?).map (fun l => l :: List.replicate (N - 1) bumper) ∧
    (∀ (m : Iter T N) (rb : RingBuf T) (r : NextRes T N),
        m.state = State.Middle rb → Iter.next bumper m = Except.ok r →
        r.iter.state = State.End → m.it = []) := by
  refine ⟨(run_spec bumper x rest fuel hN hf).2.2, ?_⟩
  intro m rb r hst h hEnd
  obtain ⟨src, st⟩ := m
  simp only at hst
  subst hst
  cases src with
  | nil => rfl
  | cons z zs =>
      exfalso
      obtain ⟨cap, data⟩ := rb
      cases data with
      | nil =>
          rw [next_middle_emptybuf bumper hN (z :: zs) cap] at h
          cases h
      | cons y ys =>
          simp only [Iter.next, RingBuf.dequeue] at h
          rw [if_neg (by omega)] at h
          cases h
          have hb : (((⟨cap, ys⟩ : RingBuf T).push z).data).isEmpty = false := by
            simp only [RingBuf.push]
            split <;> simp
          simp only [hb, if_false] at hEnd
          exact State.noConfusion hEnd

/-- C10, instantiated at `N = 2`, source `[5, 7]`: the last of the three
windows is `[7, 0]` — the final item followed by `N - 1 = 1` bumper. -/
theorem c10_last_window_witness :
    (run (0 : Nat) 4 (⟨[5, 7], State.Start⟩ : Iter Nat 2)).getLast?
        = some [7, 0] := by
  have h := (@c10_last_window Nat 2 (0 : Nat) 5 [7] 4 (by decide) (by decide)).1
  simpa using h

end NgramIter
